import Mathlib

/-!
Verification of the `functional` Go package (generic collection
transformations).  Each Go function used by the claims is embedded as an
executable Lean definition, translated from the Go source.

Modelling conventions:
* A Go slice value is a `GoSlice`: a list of elements plus a flag recording
  whether the slice is the `nil` slice (Go distinguishes a nil slice from a
  non-nil empty slice; `len` and `range` treat both alike).  Functions whose
  code never inspects nil-ness (it only calls `len` and `range`) are embedded
  directly on `List`, since a nil slice behaves exactly like an empty one
  there.
* A Go `map` is embedded as an insertion-ordered association list
  (`GoMap` / plain key lists for `map[T]struct{}` sets).  Go's map iteration
  order is deliberately unspecified; the insertion-order model is one
  admissible iteration schedule, and is noted wherever a result depends on it.
* A Go `error` result is `Option E` (`none` = nil error); a function that can
  panic returns `Option` (`none` = panic).
* The Go `int` type is embedded as `Int` where negative values matter
  (chunk sizes), `Nat` for indices.
-/

namespace Functional

/-- Model of a Go slice value: the element list together with the nil flag.
`⟨true, []⟩` is the nil slice, `⟨false, l⟩` a non-nil slice holding `l`. -/
structure GoSlice (α : Type u) where
  isNil : Bool
  elems : List α
deriving DecidableEq, Repr

/-- A non-nil Go slice with the given elements (e.g. the result of `make`). -/
def GoSlice.ofList (l : List α) : GoSlice α := ⟨false, l⟩

/-- The nil Go slice. -/
def GoSlice.goNil : GoSlice α := ⟨true, []⟩

/-- Go `len` on a slice (`len(nil) = 0`; a well-formed nil slice has `[]`). -/
def GoSlice.length (s : GoSlice α) : Nat := s.elems.length

/-- Model of a Go map value: insertion-ordered entry list plus the nil flag. -/
structure GoMap (κ : Type u) (ν : Type v) where
  isNil : Bool
  entries : List (κ × ν)
deriving Repr

/-! ### Transform family (Map, Filter, Reduce) -/

/-- Loop body of `Map` (`functional` package, `part_018`): the preallocated
result slice is filled with `mapFunc v` position by position. -/
def mapGo (mapFunc : α → β) : List α → List β
  | [] => []
  | v :: rest => mapFunc v :: mapGo mapFunc rest

/-- `Map` from `src/unnamed/part_018`: `if input == nil { return nil }`,
otherwise a freshly made slice with `mapFunc` applied to each element. -/
def Map (input : GoSlice α) (mapFunc : α → β) : GoSlice β :=
  if input.isNil then GoSlice.goNil
  else GoSlice.ofList (mapGo mapFunc input.elems)

/-- Loop of `Filter` (`src/functional/reverse.go`, third revision in the
file): appends `v` to the accumulated `result` when the predicate holds. -/
def filterGo (predicate : α → Bool) : List α → List α → List α
  | [], result => result
  | v :: rest, result =>
      if predicate v then filterGo predicate rest (result ++ [v])
      else filterGo predicate rest result

/-- `Filter` from `src/functional/reverse.go` (lines 160–177): empty non-nil
slice on `len(input) == 0`, else the append loop over `input`. -/
def Filter (input : GoSlice α) (predicate : α → Bool) : GoSlice α :=
  if input.length = 0 then GoSlice.ofList []
  else GoSlice.ofList (filterGo predicate input.elems [])

/-- `Reduce` from `src/unnamed/part_007`: returns `initial` when
`len(input) == 0`, else the left fold of `reducer` over the elements. -/
def Reduce (input : GoSlice α) (initial : β) (reducer : β → α → β) : β :=
  if input.length = 0 then initial
  else input.elems.foldl reducer initial

/-! ### Error-propagating family (MapErr, FilterErr, ReduceErr)

The Go per-element functions return a `(value, error)` pair; they are
embedded as functions into `β × Option ε` with `none` for the nil error. -/

/-- Loop of `MapErr` (`src/functional/error_variants.go`): on a non-nil error
return the results so far and the error; otherwise append and continue. -/
def mapErrGo (mapFunc : α → β × Option ε) :
    List α → List β → List β × Option ε
  | [], result => (result, none)
  | item :: rest, result =>
      match mapFunc item with
      | (_, some e) => (result, some e)
      | (mappedValue, none) => mapErrGo mapFunc rest (result ++ [mappedValue])

/-- `MapErr` from `src/functional/error_variants.go` (lines 32–56). -/
def MapErr (input : GoSlice α) (mapFunc : α → β × Option ε) :
    GoSlice β × Option ε :=
  if input.length = 0 then (GoSlice.ofList [], none)
  else
    match mapErrGo mapFunc input.elems [] with
    | (result, err) => (GoSlice.ofList result, err)

/-- Loop of `FilterErr` (`src/functional/error_variants.go`). -/
def filterErrGo (predicate : α → Bool × Option ε) :
    List α → List α → List α × Option ε
  | [], result => (result, none)
  | item :: rest, result =>
      match predicate item with
      | (_, some e) => (result, some e)
      | (keep, none) =>
          if keep then filterErrGo predicate rest (result ++ [item])
          else filterErrGo predicate rest result

/-- `FilterErr` from `src/functional/error_variants.go` (lines 85–111). -/
def FilterErr (input : GoSlice α) (predicate : α → Bool × Option ε) :
    GoSlice α × Option ε :=
  if input.length = 0 then (GoSlice.ofList [], none)
  else
    match filterErrGo predicate input.elems [] with
    | (result, err) => (GoSlice.ofList result, err)

/-- Loop of `ReduceErr` (`src/functional/error_variants.go`): on a non-nil
error return the *current* accumulator and the error; the accumulator is
updated only on success. -/
def reduceErrGo (reducer : β → α → β × Option ε) :
    List α → β → β × Option ε
  | [], accumulator => (accumulator, none)
  | item :: rest, accumulator =>
      match reducer accumulator item with
      | (_, some e) => (accumulator, some e)
      | (nextAccumulator, none) => reduceErrGo reducer rest nextAccumulator

/-- `ReduceErr` from `src/functional/error_variants.go` (lines 141–164). -/
def ReduceErr (input : GoSlice α) (initial : β)
    (reducer : β → α → β × Option ε) : β × Option ε :=
  if input.length = 0 then (initial, none)
  else reduceErrGo reducer input.elems initial

/-! ### Go hash-map model for `map[T]struct{}` sets and `map[K][]T`

A `map[T]struct{}` is modelled by its insertion-ordered key list:
`setInsert` is `set[item] = struct{}{}` (a present key is left in place),
and `x ∈ m` is the `_, ok := set[x]` lookup.  Iterating the model list is
one admissible schedule of Go's unspecified map iteration order. -/

/-- Go `set[x] = struct{}{}` on the insertion-ordered key-list model. -/
def setInsert [DecidableEq α] (m : List α) (x : α) : List α :=
  if x ∈ m then m else m ++ [x]

/-- Lookup in the association-list model of `map[κ][]T` (Go's
`value, ok := m[k]`): `none` when the key is absent. -/
def mapGet [DecidableEq κ] : List (κ × ν) → κ → Option ν
  | [], _ => none
  | (k', v) :: rest, k => if k' = k then some v else mapGet rest k

/-- Update/insert in the association-list model (Go's `m[k] = v`): an
existing key keeps its position, a new key is appended. -/
def mapPut [DecidableEq κ] : List (κ × ν) → κ → ν → List (κ × ν)
  | [], k, v => [(k, v)]
  | (k', v') :: rest, k, v =>
      if k' = k then (k', v) :: rest else (k', v') :: mapPut rest k v

/-! ### Set-algebra family -/

/-- `Intersection` from `src/functional/set_ops.go` (lines 15–51): builds a
membership set from the smaller slice, collects common elements into
`intersectionMap` while iterating the larger slice, then emits the keys of
`intersectionMap` in map-iteration order (insertion order in this model). -/
def Intersection [DecidableEq α] (s1 s2 : List α) : List α :=
  if s1.length = 0 ∨ s2.length = 0 then []
  else
    let pair := if s1.length < s2.length then (s1, s2) else (s2, s1)
    let mapSlice := pair.1
    let iterateSlice := pair.2
    let set := mapSlice.foldl setInsert []
    let intersectionMap := iterateSlice.foldl
      (fun m item => if item ∈ set then setInsert m item else m) []
    if intersectionMap.length = 0 then [] else intersectionMap

/-- Loop of `Unique` (`src/functional/set_ops.go`): `seen` is the
`map[T]struct{}` of already-emitted elements, `result` the output so far. -/
def uniqueGo [DecidableEq α] : List α → List α → List α → List α
  | [], _, result => result
  | item :: rest, seen, result =>
      if item ∈ seen then uniqueGo rest seen result
      else uniqueGo rest (seen ++ [item]) (result ++ [item])

/-- `Unique` from `src/functional/set_ops.go` (lines 141–155). -/
def Unique [DecidableEq α] (slice : List α) : List α :=
  if slice.length = 0 then [] else uniqueGo slice [] []

/-! ### Grouping and reshaping family -/

/-- `GroupBy` from `src/functional/group.go` (lines 28–49):
`result[key] = append(result[key], item)` over the input, starting from the
empty map; `append(nil, item)` reads an absent key as the empty slice. -/
def GroupBy [DecidableEq κ] (input : List α) (classifier : α → κ) :
    List (κ × List α) :=
  input.foldl
    (fun result item =>
      let key := classifier item
      mapPut result key (((mapGet result key).getD []) ++ [item]))
    []

/-- Chunking loop shared by both `Chunk` revisions in
`src/functional/chunk.go`: take the next `size` elements (fewer at the end)
until the input is exhausted; only reached with a positive `size`. -/
def chunkGo : (l : List α) → (size : Nat) → List (List α)
  | [], _ => []
  | _ :: _, 0 => []
  | a :: tl, size + 1 =>
      (a :: tl).take (size + 1) :: chunkGo ((a :: tl).drop (size + 1)) (size + 1)
termination_by l _ => l.length
decreasing_by simp [List.length_drop]; omega

/-- First `Chunk` revision in `src/functional/chunk.go` (lines 26–57): panics
when `size <= 0` (modelled as `none`), otherwise chunks the slice. -/
def ChunkStrict (slice : List α) (size : Int) : Option (List (List α)) :=
  if size ≤ 0 then none
  else if slice.length = 0 then some []
  else some (chunkGo slice size.toNat)

/-- Second `Chunk` revision in `src/functional/chunk.go` (lines 82–110):
silently returns the empty slice-of-slices when `size <= 0` or the input is
empty. -/
def Chunk (input : List α) (size : Int) : List (List α) :=
  if size ≤ 0 ∨ input.length = 0 then []
  else chunkGo input size.toNat

/-- `Flatten` from `src/functional/flatten.go` (lines 21–45): appends every
inner slice, in order, to a freshly made result slice. -/
def Flatten (input : List (List α)) : List α :=
  if input.length = 0 then []
  else input.foldl (fun result innerSlice => result ++ innerSlice) []

/-- `Keys` from `src/functional/map_utils.go` (lines 24–49): empty non-nil
slice for a nil or empty map, else the keys in map-iteration order
(insertion order in this model). -/
def Keys (m : GoMap κ ν) : GoSlice κ :=
  if m.isNil then GoSlice.ofList []
  else if m.entries.length = 0 then GoSlice.ofList []
  else GoSlice.ofList (m.entries.foldl (fun keys kv => keys ++ [kv.1]) [])

/-! ### In-place reverse -/

/-- The Go parallel assignment `slice[i], slice[j] = slice[j], slice[i]`
on the list of slice contents (identity when an index is out of range,
which the loop never produces). -/
def swapAt (l : List α) (i j : Nat) : List α :=
  match l[i]?, l[j]? with
  | some a, some b => (l.set i b).set j a
  | _, _ => l

/-- Swap loop of `Reverse`/`ReverseInPlace` (`src/functional/reverse.go`):
swap positions `i` and `length-1-i` while `i < length/2`.  `fuel` bounds the
iteration count (the caller passes the length, which is ample). -/
def revGo (l : List α) (i : Nat) : Nat → List α
  | 0 => l
  | fuel + 1 =>
      if i < l.length / 2 then
        revGo (swapAt l i (l.length - 1 - i)) (i + 1) fuel
      else l

/-- `ReverseInPlace` from `src/functional/reverse.go` (lines 123–139, same
body as the in-place `Reverse` at lines 53–69), as a transformer of the
slice contents: do nothing below length 2, else run the swap loop. -/
def ReverseInPlace (input : List α) : List α :=
  if input.length < 2 then input else revGo input 0 input.length

/-- The nil Go map. -/
def GoMap.goNil : GoMap κ ν := ⟨true, []⟩

/-- Elements of `l` not in `seen`, first occurrence only, in traversal
order: the value computed by the `seen`/`result` loop of `Unique`
(proved as `uniqueGo_eq_filterFA`). -/
def filterFA [DecidableEq α] : List α → List α → List α
  | [], _ => []
  | x :: xs, seen =>
      if x ∈ seen then filterFA xs seen else x :: filterFA xs (seen ++ [x])

/-- Concatenation of all value slices of a `map[K][]T` model, in entry
order. -/
def valsJoin (m : List (κ × List α)) : List α := (m.map Prod.snd).flatten

/-! ## Basic lemmas about the slice model -/

@[simp]
theorem GoSlice.elems_ofList (l : List α) : (GoSlice.ofList l).elems = l := rfl

@[simp]
theorem GoSlice.isNil_ofList (l : List α) : (GoSlice.ofList l).isNil = false := rfl

@[simp]
theorem GoSlice.length_ofList (l : List α) :
    (GoSlice.ofList l).length = l.length := rfl

theorem mapGo_eq_map (f : α → β) (l : List α) : mapGo f l = l.map f := by
  induction l with
  | nil => rfl
  | cons v rest ih => simp [mapGo, ih]

/-! ## MapErr lemmas (claim C1) -/

/-- Processing a prefix on which `mapFunc` never fails just extends the
accumulated result with the mapped prefix. -/
theorem mapErrGo_ok_run (mapFunc : α → β × Option ε) :
    ∀ (pre : List α), (∀ t ∈ pre, (mapFunc t).2 = none) →
      ∀ (rest : List α) (result : List β),
        mapErrGo mapFunc (pre ++ rest) result
          = mapErrGo mapFunc rest (result ++ pre.map fun t => (mapFunc t).1) := by
  intro pre
  induction pre with
  | nil => intro _ rest result; simp
  | cons t pre ih =>
      intro h rest result
      obtain ⟨v, hv⟩ : ∃ v, mapFunc t = (v, none) := by
        refine ⟨(mapFunc t).1, ?_⟩
        have := h t (by simp)
        cases h' : mapFunc t
        simp_all
      simp only [List.cons_append, mapErrGo, hv, List.append_eq]
      rw [ih (fun u hu => h u (by simp [hu])) rest (result ++ [v])]
      simp [hv]

/-- The loop stops at the first failing element, returning the results so
far and the error. -/
theorem mapErrGo_err (mapFunc : α → β × Option ε) (x : α) (rest result : List _)
    (e : ε) (hx : (mapFunc x).2 = some e) :
    mapErrGo mapFunc (x :: rest) result = (result, some e) := by
  obtain ⟨v, hv⟩ : ∃ v, mapFunc x = (v, some e) := by
    refine ⟨(mapFunc x).1, ?_⟩
    cases h' : mapFunc x
    simp_all
  simp [mapErrGo, hv]

/-- Claim C1: if `mapFunc` succeeds on every element of `pre` and fails with
error `e` on `x` (the element at index `len(pre)`), then `MapErr` returns
exactly the mapped results of `pre` together with `e`, and its output is the
same as on the input truncated right after `x` — elements past the failure
are never visited. -/
theorem mapErr_fail_fast (pre suf : List α) (x : α)
    (mapFunc : α → β × Option ε) (e : ε)
    (hOk : ∀ t ∈ pre, (mapFunc t).2 = none) (hErr : (mapFunc x).2 = some e) :
    MapErr (GoSlice.ofList (pre ++ x :: suf)) mapFunc
      = (GoSlice.ofList (pre.map fun t => (mapFunc t).1), some e)
    ∧ MapErr (GoSlice.ofList (pre ++ x :: suf)) mapFunc
      = MapErr (GoSlice.ofList (pre ++ [x])) mapFunc := by
  have key : ∀ (suf' : List α), mapErrGo mapFunc (pre ++ x :: suf') []
      = (pre.map fun t => (mapFunc t).1, some e) := by
    intro suf'
    rw [mapErrGo_ok_run mapFunc pre hOk (x :: suf') [],
      mapErrGo_err mapFunc x _ _ e hErr]
    simp
  have h1 : ∀ (suf' : List α),
      MapErr (GoSlice.ofList (pre ++ x :: suf')) mapFunc
        = (GoSlice.ofList (pre.map fun t => (mapFunc t).1), some e) := by
    intro suf'
    simp [MapErr, key suf']
  refine ⟨h1 suf, ?_⟩
  rw [h1 suf, show pre ++ [x] = pre ++ x :: [] from rfl, h1 []]

/-- Witness for C1: the spec's own example shape — a mapper failing exactly
on the value 3 yields the mapped images of 1 and 2 plus the error. -/
theorem mapErr_fail_fast_witness :
    MapErr (GoSlice.ofList ([1, 2] ++ 3 :: [4, 5]))
        (fun n : Nat => (n * 10, if n = 3 then some 0 else none))
      = (GoSlice.ofList [10, 20], some 0) := by
  have h := (mapErr_fail_fast [1, 2] [4, 5] 3
      (fun n : Nat => (n * 10, if n = 3 then some 0 else none)) 0
      (by decide) (by decide)).1
  simpa using h

/-! ## ReduceErr lemmas (claim C2) -/

/-- `ReduceErr` is its loop, run on the elements (both sides return
`(initial, none)` on an empty slice). -/
theorem reduceErr_eq_go (l : List α) (initial : β)
    (reducer : β → α → β × Option ε) :
    ReduceErr (GoSlice.ofList l) initial reducer
      = reduceErrGo reducer l initial := by
  cases l <;> simp [ReduceErr, reduceErrGo]

/-- `Reduce` is a left fold of the reducer over the elements. -/
theorem reduce_eq_foldl (l : List α) (initial : β) (reducer : β → α → β) :
    Reduce (GoSlice.ofList l) initial reducer = l.foldl reducer initial := by
  cases l <;> simp [Reduce]

/-- A loop run that ends with a nil error computed the plain left fold of
the value components. -/
theorem reduceErrGo_none_eq_foldl (reducer : β → α → β × Option ε) :
    ∀ (l : List α) (acc a : β), reduceErrGo reducer l acc = (a, none) →
      a = l.foldl (fun b t => (reducer b t).1) acc := by
  intro l
  induction l with
  | nil => intro acc a h; simpa [reduceErrGo] using h.symm
  | cons item rest ih =>
      intro acc a h
      rcases hr : reducer acc item with ⟨next, err⟩
      cases err with
      | some e => simp [reduceErrGo, hr] at h
      | none =>
          simp only [reduceErrGo, hr] at h
          simpa [List.foldl_cons, hr] using ih next a h

/-- Appending a failing element (and anything after it) to a successful run
returns the accumulator reached so far together with that error. -/
theorem reduceErrGo_append_err (reducer : β → α → β × Option ε) (x : α) (e : ε) :
    ∀ (pre : List α) (suf : List α) (acc a : β),
      reduceErrGo reducer pre acc = (a, none) → (reducer a x).2 = some e →
      reduceErrGo reducer (pre ++ x :: suf) acc = (a, some e) := by
  intro pre
  induction pre with
  | nil =>
      intro suf acc a h hx
      have hacc : acc = a := by simpa [reduceErrGo] using congrArg Prod.fst h
      subst hacc
      obtain ⟨v, hv⟩ : ∃ v, reducer acc x = (v, some e) := by
        refine ⟨(reducer acc x).1, ?_⟩
        cases h' : reducer acc x
        simp_all
      simp [reduceErrGo, hv]
  | cons item rest ih =>
      intro suf acc a h hx
      rcases hr : reducer acc item with ⟨next, err⟩
      cases err with
      | some e' => simp [reduceErrGo, hr] at h
      | none =>
          simp only [reduceErrGo, hr] at h
          simp only [List.cons_append, reduceErrGo, hr]
          exact ih suf next a h hx

/-- Claim C2: if `ReduceErr` on the prefix `pre` succeeds with accumulator
`a` and the reducer fails with `e` on the next element `x`, then `ReduceErr`
on the whole slice returns `(a, e)` — the accumulator as it stood before the
failing call — and `a` is the plain left fold of the value components over
exactly the prefix. -/
theorem reduceErr_partial_accumulator (pre suf : List α) (x : α)
    (initial a : β) (reducer : β → α → β × Option ε) (e : ε)
    (h1 : ReduceErr (GoSlice.ofList pre) initial reducer = (a, none))
    (h2 : (reducer a x).2 = some e) :
    ReduceErr (GoSlice.ofList (pre ++ x :: suf)) initial reducer = (a, some e)
    ∧ a = Reduce (GoSlice.ofList pre) initial
        (fun acc t => (reducer acc t).1) := by
  rw [reduceErr_eq_go] at h1
  constructor
  · rw [reduceErr_eq_go]
    exact reduceErrGo_append_err reducer x e pre suf initial a h1 h2
  · rw [reduce_eq_foldl]
    exact reduceErrGo_none_eq_foldl reducer pre initial a h1

/-- Witness for C2: the spec's example — summing `[1,2,3,4,5]` from 0 with a
reducer failing on 4 yields `(1+2+3, error) = (6, error)`. -/
theorem reduceErr_partial_accumulator_witness :
    ReduceErr (GoSlice.ofList ([1, 2, 3] ++ 4 :: [5])) 0
        (fun acc n => (acc + n, if n = 4 then some 0 else none))
      = (6, some 0) := by
  have h := (reduceErr_partial_accumulator [1, 2, 3] [5] 4 0 6
      (fun acc n : Nat => (acc + n, if n = 4 then some 0 else none)) 0
      (by decide) (by decide)).1
  simpa using h

/-! ## Success-path lemmas (claim C6) -/

/-- `MapErr` on a never-failing mapper maps every element and reports no
error, whatever the nil flag of the input. -/
theorem mapErr_all_ok (b : Bool) (l : List α) (mapFunc : α → β × Option ε)
    (hm : ∀ t, (mapFunc t).2 = none) :
    MapErr (GoSlice.mk b l) mapFunc
      = (GoSlice.ofList (l.map fun t => (mapFunc t).1), none) := by
  cases l with
  | nil => simp [MapErr, GoSlice.length]
  | cons x xs =>
      have h : mapErrGo mapFunc (x :: xs) []
          = ((x :: xs).map fun t => (mapFunc t).1, none) := by
        have h0 := mapErrGo_ok_run mapFunc (x :: xs)
          (fun t _ => hm t) [] []
        simpa [mapErrGo] using h0
      simp [MapErr, GoSlice.length, h]

/-- The `FilterErr` loop on a never-failing predicate is the `Filter` loop
with no error. -/
theorem filterErrGo_all_ok (predicate : α → Bool × Option ε)
    (hp : ∀ t, (predicate t).2 = none) :
    ∀ (l result : List α), filterErrGo predicate l result
      = (filterGo (fun t => (predicate t).1) l result, none) := by
  intro l
  induction l with
  | nil => intro result; simp [filterErrGo, filterGo]
  | cons x xs ih =>
      intro result
      obtain ⟨keep, hk⟩ : ∃ keep, predicate x = (keep, none) := by
        refine ⟨(predicate x).1, ?_⟩
        have := hp x
        cases h' : predicate x
        simp_all
      simp only [filterErrGo, filterGo, hk]
      by_cases hkeep : keep <;> simp [hkeep, ih]

/-- The `ReduceErr` loop on a never-failing reducer is the plain left fold
with no error. -/
theorem reduceErrGo_all_ok (reducer : β → α → β × Option ε)
    (hr : ∀ a t, (reducer a t).2 = none) :
    ∀ (l : List α) (acc : β), reduceErrGo reducer l acc
      = (l.foldl (fun b t => (reducer b t).1) acc, none) := by
  intro l
  induction l with
  | nil => intro acc; simp [reduceErrGo]
  | cons x xs ih =>
      intro acc
      obtain ⟨next, hn⟩ : ∃ next, reducer acc x = (next, none) := by
        refine ⟨(reducer acc x).1, ?_⟩
        have := hr acc x
        cases h' : reducer acc x
        simp_all
      simp [reduceErrGo, hn, ih, List.foldl_cons]

/-- Counterexample to claim C6 as stated: on the nil input slice, `MapErr`
returns a present-but-empty (non-nil) slice while `Map` returns the nil
slice, so the error variant's success-path output is not *exactly* `Map`'s
output on nil input. -/
theorem mapErr_map_disagree_on_nil :
    (MapErr GoSlice.goNil (fun n : Nat => (n, (none : Option Nat)))).1
      ≠ Map GoSlice.goNil (fun n : Nat => n) := by
  decide

/-- Claim C6 (amended): for per-element functions that never return an
error, each error-propagating function returns its non-erroring
counterpart's result with a nil error — exactly so for `FilterErr`/`Filter`
and `ReduceErr`/`Reduce` on every well-formed input, and for `MapErr`/`Map`
on every non-nil input; on the nil input the two agree element-wise but
`Map` returns nil while `MapErr` returns an empty non-nil slice. -/
theorem errVariants_refine_success (input : GoSlice α) (initial : δ)
    (mapFunc : α → β × Option ε) (predicate : α → Bool × Option ε₂)
    (reducer : δ → α → δ × Option ε₃)
    (hwf : input.isNil = true → input.elems = [])
    (hm : ∀ t, (mapFunc t).2 = none)
    (hp : ∀ t, (predicate t).2 = none)
    (hr : ∀ a t, (reducer a t).2 = none) :
    (MapErr input mapFunc).2 = none
    ∧ (MapErr input mapFunc).1.elems
        = (Map input fun t => (mapFunc t).1).elems
    ∧ (input.isNil = false →
        MapErr input mapFunc = (Map input fun t => (mapFunc t).1, none))
    ∧ FilterErr input predicate
        = (Filter input fun t => (predicate t).1, none)
    ∧ ReduceErr input initial reducer
        = (Reduce input initial fun acc t => (reducer acc t).1, none) := by
  obtain ⟨b, l⟩ := input
  have hmap := mapErr_all_ok b l mapFunc hm
  have hfilter : FilterErr (GoSlice.mk b l) predicate
      = (Filter (GoSlice.mk b l) fun t => (predicate t).1, none) := by
    cases l with
    | nil => simp [FilterErr, Filter, GoSlice.length, filterGo]
    | cons x xs =>
        simp [FilterErr, Filter, GoSlice.length,
          filterErrGo_all_ok predicate hp]
  have hreduce : ReduceErr (GoSlice.mk b l) initial reducer
      = (Reduce (GoSlice.mk b l) initial fun acc t => (reducer acc t).1,
          none) := by
    cases l with
    | nil => simp [ReduceErr, Reduce, GoSlice.length]
    | cons x xs =>
        simp [ReduceErr, Reduce, GoSlice.length,
          reduceErrGo_all_ok reducer hr]
  refine ⟨by simp [hmap], ?_, ?_, hfilter, hreduce⟩
  · cases b with
    | true =>
        have hl : l = [] := hwf rfl
        subst hl
        simp [hmap, Map, GoSlice.goNil]
    | false => simp [hmap, Map, mapGo_eq_map]
  · intro hb
    cases b with
    | true => exact absurd hb (by simp)
    | false => simp [hmap, Map, mapGo_eq_map]

/-- Witness for C6 (amended): concrete never-failing functions on `[1,2,3]`;
`ReduceErr` returns the plain `Reduce` result with a nil error. -/
theorem errVariants_refine_success_witness :
    ReduceErr (GoSlice.ofList [1, 2, 3]) 0
        (fun acc n => (acc + n, (none : Option Nat)))
      = (6, none) := by
  have h := (errVariants_refine_success (GoSlice.ofList [1, 2, 3]) 0
      (fun n : Nat => (n, (none : Option Nat)))
      (fun n : Nat => (true, (none : Option Nat)))
      (fun acc n : Nat => (acc + n, (none : Option Nat)))
      (by simp [GoSlice.ofList]) (fun t => rfl) (fun t => rfl)
      (fun a t => rfl)).2.2.2.2
  simpa [Reduce, GoSlice.length] using h

/-! ## Chunk lemmas (claims C3 and C7) -/

/-- Counterexample to claim C3 as stated: the second `Chunk` revision
(`src/functional/chunk.go` lines 82–110) returns the empty slice-of-slices
for `size = 0` on a non-empty slice — a normal return with no
InvalidArgument signal (no panic and no error channel in its signature),
which the claim forbids. -/
theorem chunk_zero_silently_empty : Chunk ([1, 2, 3] : List Nat) 0 = [] := rfl

/-- Claim C3 (amended): for `size ≤ 0` the first `Chunk` revision signals
caller misuse by panicking (modelled `none`), while the second revision
silently returns the empty result instead of signalling. -/
theorem chunk_nonpositive_size (s : List α) (size : Int) (h : size ≤ 0) :
    ChunkStrict s size = none ∧ Chunk s size = [] := by
  simp [ChunkStrict, Chunk, h]

/-- Witness for C3 (amended) at `s = [1,2,3]`, `size = -1`. -/
theorem chunk_nonpositive_size_witness :
    ChunkStrict ([1, 2, 3] : List Nat) (-1) = none
    ∧ Chunk ([1, 2, 3] : List Nat) (-1) = [] :=
  chunk_nonpositive_size [1, 2, 3] (-1) (by decide)

/-- `Flatten` is list concatenation of the inner slices. -/
theorem flatten_eq_flatten (input : List (List α)) :
    Flatten input = input.flatten := by
  have hfold : ∀ (L : List (List α)) (acc : List α),
      L.foldl (fun result innerSlice => result ++ innerSlice) acc
        = acc ++ L.flatten := by
    intro L
    induction L with
    | nil => intro acc; simp
    | cons inner rest ih => intro acc; simp [ih]
  cases input with
  | nil => simp [Flatten]
  | cons inner rest => simp [Flatten, hfold]

/-- Concatenating the chunks of a positive chunking recovers the input. -/
theorem flatten_chunkGo :
    ∀ (m : Nat) (l : List α) (n : Nat), l.length ≤ m →
      (chunkGo l (n + 1)).flatten = l := by
  intro m
  induction m with
  | zero =>
      intro l n hl
      have : l = [] := List.eq_nil_of_length_eq_zero (Nat.le_zero.mp hl)
      subst this
      simp [chunkGo]
  | succ m ih =>
      intro l n hl
      cases l with
      | nil => simp [chunkGo]
      | cons a tl =>
          have hdrop : ((a :: tl).drop (n + 1)).length ≤ m := by
            simp only [List.length_cons] at hl
            simp only [List.length_drop, List.length_cons]
            omega
          simp only [chunkGo, List.flatten_cons, ih _ n hdrop,
            List.take_append_drop]

/-- Claim C7: `Flatten (Chunk s k) = s` for every slice `s` and every chunk
size `k ≥ 1`. -/
theorem flatten_chunk_roundtrip (s : List α) (k : Int) (hk : 1 ≤ k) :
    Flatten (Chunk s k) = s := by
  rw [flatten_eq_flatten]
  have hk0 : ¬ (k ≤ 0) := by omega
  cases s with
  | nil => simp [Chunk]
  | cons a tl =>
      obtain ⟨n, hn⟩ : ∃ n : Nat, k.toNat = n + 1 := ⟨k.toNat - 1, by omega⟩
      have hchunk : Chunk (a :: tl) k = chunkGo (a :: tl) (n + 1) := by
        simp [Chunk, hk0, hn]
      rw [hchunk, flatten_chunkGo (a :: tl).length (a :: tl) n le_rfl]

/-- Witness for C7 at `s = [1,2,3,4,5]`, `k = 2`. -/
theorem flatten_chunk_roundtrip_witness :
    Flatten (Chunk ([1, 2, 3, 4, 5] : List Nat) 2) = [1, 2, 3, 4, 5] :=
  flatten_chunk_roundtrip [1, 2, 3, 4, 5] 2 (by decide)

/-! ## Membership-set lemmas (claims C4 and C8) -/

theorem mem_setInsert [DecidableEq α] (m : List α) (x y : α) :
    y ∈ setInsert m x ↔ y ∈ m ∨ y = x := by
  by_cases h : x ∈ m
  · simp only [setInsert, if_pos h]
    constructor
    · exact Or.inl
    · rintro (hy | rfl) <;> assumption
  · simp [setInsert, if_neg h]

theorem nodup_setInsert [DecidableEq α] (m : List α) (x : α)
    (hm : m.Nodup) : (setInsert m x).Nodup := by
  by_cases h : x ∈ m
  · simpa [setInsert, if_pos h] using hm
  · simp only [setInsert, if_neg h]
    rw [List.nodup_append]
    exact ⟨hm, List.nodup_singleton x,
      fun y hy hy' => h (by rwa [List.mem_singleton.mp hy'] at hy)⟩

theorem mem_foldl_setInsert [DecidableEq α] :
    ∀ (l acc : List α) (x : α),
      x ∈ l.foldl setInsert acc ↔ x ∈ acc ∨ x ∈ l := by
  intro l
  induction l with
  | nil => intro acc x; simp
  | cons a rest ih =>
      intro acc x
      rw [List.foldl_cons, ih, mem_setInsert]
      constructor
      · rintro ((hx | rfl) | hx)
        · exact Or.inl hx
        · exact Or.inr (List.mem_cons_self _ _)
        · exact Or.inr (List.mem_cons_of_mem _ hx)
      · rintro (hx | hx)
        · exact Or.inl (Or.inl hx)
        · rcases List.mem_cons.mp hx with rfl | hx
          · exact Or.inl (Or.inr rfl)
          · exact Or.inr hx

theorem nodup_foldl_setInsert [DecidableEq α] :
    ∀ (l acc : List α), acc.Nodup → (l.foldl setInsert acc).Nodup := by
  intro l
  induction l with
  | nil => intro acc h; simpa using h
  | cons a rest ih =>
      intro acc h
      rw [List.foldl_cons]
      exact ih _ (nodup_setInsert acc a h)

theorem mem_foldl_condInsert [DecidableEq α] (s : List α) :
    ∀ (l acc : List α) (x : α),
      x ∈ l.foldl (fun m item => if item ∈ s then setInsert m item else m) acc
        ↔ x ∈ acc ∨ (x ∈ l ∧ x ∈ s) := by
  intro l
  induction l with
  | nil => intro acc x; simp
  | cons a rest ih =>
      intro acc x
      rw [List.foldl_cons]
      by_cases ha : a ∈ s
      · rw [if_pos ha, ih, mem_setInsert]
        constructor
        · rintro ((hx | rfl) | ⟨hl, hs⟩)
          · exact Or.inl hx
          · exact Or.inr ⟨List.mem_cons_self _ _, ha⟩
          · exact Or.inr ⟨List.mem_cons_of_mem _ hl, hs⟩
        · rintro (hx | ⟨hal, hs⟩)
          · exact Or.inl (Or.inl hx)
          · rcases List.mem_cons.mp hal with rfl | hl
            · exact Or.inl (Or.inr rfl)
            · exact Or.inr ⟨hl, hs⟩
      · rw [if_neg ha, ih]
        constructor
        · rintro (hx | ⟨hl, hs⟩)
          · exact Or.inl hx
          · exact Or.inr ⟨List.mem_cons_of_mem _ hl, hs⟩
        · rintro (hx | ⟨hal, hs⟩)
          · exact Or.inl hx
          · rcases List.mem_cons.mp hal with rfl | hl
            · exact absurd hs ha
            · exact Or.inr ⟨hl, hs⟩

theorem nodup_foldl_condInsert [DecidableEq α] (s : List α) :
    ∀ (l acc : List α), acc.Nodup →
      (l.foldl (fun m item => if item ∈ s then setInsert m item else m)
        acc).Nodup := by
  intro l
  induction l with
  | nil => intro acc h; simpa using h
  | cons a rest ih =>
      intro acc h
      rw [List.foldl_cons]
      by_cases ha : a ∈ s
      · rw [if_pos ha]; exact ih _ (nodup_setInsert acc a h)
      · rw [if_neg ha]; exact ih _ h

/-- A list guarded by its own emptiness check is itself. -/
theorem ite_length_zero (m : List α) :
    (if m.length = 0 then ([] : List α) else m) = m := by
  by_cases h : m.length = 0
  · rw [if_pos h, List.length_eq_zero.mp h]
  · rw [if_neg h]

/-- Core of `Intersection`: membership in the collected intersection map. -/
theorem inter_core_mem [DecidableEq α] (ms iter : List α) (x : α) :
    x ∈ iter.foldl
        (fun m item => if item ∈ ms.foldl setInsert [] then setInsert m item
          else m) []
      ↔ x ∈ iter ∧ x ∈ ms := by
  rw [mem_foldl_condInsert, mem_foldl_setInsert]
  simp

/-- Counterexample to claim C4 as stated: for `a = [1,2]`, `b = [2,1,3]` the
implementation iterates the longer slice `b` and emits in map-iteration
order (insertion order in this model), producing `[2,1]`, not the
first-appearance-in-`a` order `[1,2]` the claim requires. -/
theorem intersection_not_ordered_by_a :
    Intersection ([1, 2] : List Nat) [2, 1, 3] = [2, 1]
    ∧ Intersection ([1, 2] : List Nat) [2, 1, 3] ≠ [1, 2] := by
  constructor
  · rfl
  · decide

/-- Claim C4 (amended): `Intersection a b` contains exactly the distinct
values occurring in both `a` and `b`, each exactly once; its order is not
guaranteed (the implementation emits hash-map iteration order and may
follow either input). -/
theorem intersection_members_unique [DecidableEq α] (a b : List α) :
    (∀ x, x ∈ Intersection a b ↔ x ∈ a ∧ x ∈ b)
    ∧ (Intersection a b).Nodup := by
  by_cases h0 : a.length = 0 ∨ b.length = 0
  · have hinter : Intersection a b = [] := by
      unfold Intersection
      rw [if_pos h0]
    rw [hinter]
    refine ⟨fun x => ?_, List.nodup_nil⟩
    rcases h0 with h | h
    · rw [List.length_eq_zero.mp h]; simp
    · rw [List.length_eq_zero.mp h]; simp
  · have hinter : Intersection a b
        = (if a.length < b.length then (a, b) else (b, a)).2.foldl
            (fun m item =>
              if item ∈ (if a.length < b.length then (a, b)
                  else (b, a)).1.foldl setInsert [] then setInsert m item
              else m) [] := by
      simp only [Intersection, if_neg h0]
      rw [ite_length_zero]
    by_cases hlt : a.length < b.length
    · rw [hinter]
      simp only [if_pos hlt]
      exact ⟨fun x => by rw [inter_core_mem]; exact and_comm,
        nodup_foldl_condInsert _ b [] List.nodup_nil⟩
    · rw [hinter]
      simp only [if_neg hlt]
      exact ⟨fun x => by rw [inter_core_mem],
        nodup_foldl_condInsert _ a [] List.nodup_nil⟩

/-! ## Unique lemmas (claim C8) -/

theorem uniqueGo_eq_filterFA [DecidableEq α] :
    ∀ (l seen result : List α),
      uniqueGo l seen result = result ++ filterFA l seen := by
  intro l
  induction l with
  | nil => intro seen result; simp [uniqueGo, filterFA]
  | cons item rest ih =>
      intro seen result
      by_cases h : item ∈ seen
      · simp [uniqueGo, filterFA, if_pos h, ih]
      · simp [uniqueGo, filterFA, if_neg h, ih]

theorem mem_filterFA [DecidableEq α] :
    ∀ (l seen : List α) (x : α),
      x ∈ filterFA l seen ↔ x ∈ l ∧ x ∉ seen := by
  intro l
  induction l with
  | nil => intro seen x; simp [filterFA]
  | cons a rest ih =>
      intro seen x
      by_cases ha : a ∈ seen
      · rw [filterFA, if_pos ha, ih]
        constructor
        · rintro ⟨hl, hs⟩; exact ⟨List.mem_cons_of_mem _ hl, hs⟩
        · rintro ⟨hal, hs⟩
          rcases List.mem_cons.mp hal with rfl | hl
          · exact absurd ha hs
          · exact ⟨hl, hs⟩
      · rw [filterFA, if_neg ha]
        constructor
        · intro hx
          rcases List.mem_cons.mp hx with rfl | hx
          · exact ⟨List.mem_cons_self _ _, ha⟩
          · obtain ⟨hl, hs⟩ := (ih _ x).mp hx
            refine ⟨List.mem_cons_of_mem _ hl, fun hmem => hs ?_⟩
            simp [hmem]
        · rintro ⟨hal, hs⟩
          rcases List.mem_cons.mp hal with rfl | hl
          · exact List.mem_cons_self _ _
          · by_cases hxa : x = a
            · subst hxa; exact List.mem_cons_self _ _
            · refine List.mem_cons_of_mem _ ((ih _ x).mpr ⟨hl, ?_⟩)
              simp [hs, hxa]

theorem nodup_filterFA [DecidableEq α] :
    ∀ (l seen : List α), (filterFA l seen).Nodup := by
  intro l
  induction l with
  | nil => intro seen; simp [filterFA]
  | cons a rest ih =>
      intro seen
      by_cases ha : a ∈ seen
      · rw [filterFA, if_pos ha]; exact ih seen
      · rw [filterFA, if_neg ha]
        refine List.Nodup.cons ?_ (ih _)
        intro hmem
        have := ((mem_filterFA rest (seen ++ [a]) a).mp hmem).2
        simp at this

theorem pairwise_filterFA [DecidableEq α] :
    ∀ (l seen : List α),
      List.Pairwise (fun x y => l.indexOf x < l.indexOf y)
        (filterFA l seen) := by
  intro l
  induction l with
  | nil => intro seen; simp [filterFA]
  | cons a rest ih =>
      intro seen
      by_cases ha : a ∈ seen
      · rw [filterFA, if_pos ha]
        refine (ih seen).imp_of_mem ?_
        intro x y hx hy hxy
        have hxa : a ≠ x := by
          rintro rfl
          exact ((mem_filterFA rest seen a).mp hx).2 ha
        have hya : a ≠ y := by
          rintro rfl
          exact ((mem_filterFA rest seen a).mp hy).2 ha
        rw [List.indexOf_cons_ne rest hxa, List.indexOf_cons_ne rest hya]
        exact Nat.succ_lt_succ hxy
      · rw [filterFA, if_neg ha]
        refine List.Pairwise.cons ?_ ?_
        · intro y hy
          have hya : a ≠ y := by
            rintro rfl
            have := ((mem_filterFA rest (seen ++ [a]) a).mp hy).2
            simp at this
          rw [List.indexOf_cons_self, List.indexOf_cons_ne rest hya]
          exact Nat.succ_pos _
        · refine (ih (seen ++ [a])).imp_of_mem ?_
          intro x y hx hy hxy
          have hxa : a ≠ x := by
            rintro rfl
            have := ((mem_filterFA rest (seen ++ [a]) a).mp hx).2
            simp at this
          have hya : a ≠ y := by
            rintro rfl
            have := ((mem_filterFA rest (seen ++ [a]) a).mp hy).2
            simp at this
          rw [List.indexOf_cons_ne rest hxa, List.indexOf_cons_ne rest hya]
          exact Nat.succ_lt_succ hxy

/-- Claim C8: `Unique s` contains exactly the values of `s` (membership is
preserved), with no duplicates, listed in order of first appearance
(pairwise increasing first-occurrence index in `s`). -/
theorem unique_first_appearance [DecidableEq α] (s : List α) :
    (∀ x, x ∈ Unique s ↔ x ∈ s)
    ∧ (Unique s).Nodup
    ∧ List.Pairwise (fun x y => s.indexOf x < s.indexOf y) (Unique s) := by
  by_cases h : s.length = 0
  · have hs : s = [] := List.length_eq_zero.mp h
    subst hs
    simp [Unique]
  · have hu : Unique s = filterFA s [] := by
      rw [Unique, if_neg h, uniqueGo_eq_filterFA, List.nil_append]
    rw [hu]
    exact ⟨fun x => by rw [mem_filterFA]; simp,
      nodup_filterFA s [], pairwise_filterFA s []⟩

/-! ## Nil-input normalization (claim C5) -/

/-- Counterexample to claim C5 as stated: `Map` applied to the nil slice
returns the nil slice (`if input == nil { return nil }` in
`src/unnamed/part_018`), not the present-but-empty slice the normalization
policy requires of every non-error-propagating function. -/
theorem map_nil_returns_nil :
    (Map GoSlice.goNil (fun n : Nat => n)).isNil = true := rfl

/-- Claim C5 (amended): `Filter` and `Keys` normalize absent (nil) input to
a present-but-empty (non-nil, zero-element) result, but `Map` propagates
nil input to a nil output, so the normalization policy does not hold for
every non-error-propagating function. -/
theorem nil_input_normalization :
    (∀ (predicate : α → Bool),
      Filter (GoSlice.goNil : GoSlice α) predicate = GoSlice.ofList [])
    ∧ Keys (GoMap.goNil : GoMap κ ν) = GoSlice.ofList []
    ∧ (∀ (f : α → β), Map (GoSlice.goNil : GoSlice α) f = GoSlice.goNil) :=
  ⟨fun _ => rfl, rfl, fun _ => rfl⟩

/-! ## GroupBy lemmas (claim C9) -/

theorem mapGet_mapPut [DecidableEq κ] (m : List (κ × ν)) (k k' : κ) (v : ν) :
    mapGet (mapPut m k v) k' = if k = k' then some v else mapGet m k' := by
  induction m with
  | nil => simp [mapPut, mapGet]
  | cons kv rest ih =>
      obtain ⟨k₀, v₀⟩ := kv
      by_cases h : k₀ = k
      · subst h
        by_cases h' : k₀ = k' <;> simp [mapPut, mapGet, h']
      · by_cases h' : k₀ = k'
        · subst h'
          have : ¬ (k = k₀) := fun hk => h hk.symm
          simp [mapPut, mapGet, h, this]
        · simp [mapPut, mapGet, h, h', ih]

/-- Running the `GroupBy` loop from any map state appends, at every key,
exactly the elements of the traversed list that classify to that key. -/
theorem groupGo_get [DecidableEq κ] (classifier : α → κ) :
    ∀ (l : List α) (m : List (κ × List α)) (k : κ),
      (mapGet (l.foldl (fun result item => mapPut result (classifier item)
          (((mapGet result (classifier item)).getD []) ++ [item])) m) k).getD
          []
        = (mapGet m k).getD [] ++ l.filter (fun e => classifier e = k) := by
  intro l
  induction l with
  | nil => intro m k; simp
  | cons x xs ih =>
      intro m k
      rw [List.foldl_cons, ih]
      by_cases hk : classifier x = k
      · rw [mapGet_mapPut, if_pos hk, hk]
        simp [List.filter_cons, hk]
      · rw [mapGet_mapPut, if_neg hk]
        simp [List.filter_cons, hk]

/-- Updating one key's slice by appending `x` permutes the joined values by
inserting `x`. -/
theorem valsJoin_mapPut [DecidableEq κ] :
    ∀ (m : List (κ × List α)) (k : κ) (x : α),
      (valsJoin (mapPut m k (((mapGet m k).getD []) ++ [x]))).Perm
        (valsJoin m ++ [x]) := by
  intro m
  induction m with
  | nil => intro k x; simp [mapPut, mapGet, valsJoin]
  | cons kv rest ih =>
      obtain ⟨k₀, v₀⟩ := kv
      intro k x
      by_cases h : k₀ = k
      · subst h
        simp only [mapPut, mapGet, eq_self_iff_true, if_true, valsJoin,
          List.map_cons, List.flatten_cons, Option.getD_some,
          List.append_assoc]
        exact List.Perm.append_left v₀ List.perm_append_comm
      · have hne : ¬ (k₀ = k) := h
        simp only [mapPut, mapGet, if_neg hne, valsJoin, List.map_cons,
          List.flatten_cons, List.append_assoc]
        exact List.Perm.append_left v₀ (ih k x)

/-- Running the `GroupBy` loop permutes the traversed elements into the
joined value slices. -/
theorem groupGo_perm [DecidableEq κ] (classifier : α → κ) :
    ∀ (l : List α) (m : List (κ × List α)),
      (valsJoin (l.foldl (fun result item => mapPut result (classifier item)
          (((mapGet result (classifier item)).getD []) ++ [item]))
        m)).Perm (valsJoin m ++ l) := by
  intro l
  induction l with
  | nil => intro m; simp
  | cons x xs ih =>
      intro m
      rw [List.foldl_cons]
      refine (ih _).trans ?_
      have h1 := List.Perm.append_right xs
        (valsJoin_mapPut m (classifier x) x)
      refine h1.trans ?_
      rw [List.append_assoc, List.singleton_append]

/-- Claim C9: `GroupBy` maps each key `k` to exactly the ordered
subsequence of input elements classifying to `k` (the empty slice for
unused keys), and the concatenation of all value slices is a permutation
(equal multiset) of the input. -/
theorem groupBy_partition [DecidableEq κ] (input : List α)
    (classifier : α → κ) :
    (∀ k, (mapGet (GroupBy input classifier) k).getD []
        = input.filter (fun e => classifier e = k))
    ∧ (valsJoin (GroupBy input classifier)).Perm input := by
  constructor
  · intro k
    have h := groupGo_get classifier input [] k
    simpa [GroupBy, mapGet] using h
  · have h := groupGo_perm classifier input []
    simpa [GroupBy, valsJoin] using h

/-- Witness for C4 (amended): 2 is in both inputs, so it is in the
intersection. -/
theorem intersection_members_unique_witness :
    2 ∈ Intersection ([1, 2, 3] : List Nat) [2, 3, 4] :=
  ((intersection_members_unique ([1, 2, 3] : List Nat) [2, 3, 4]).1 2).mpr
    (by decide)

/-- Witness for C5 (amended) at a concrete predicate type. -/
theorem nil_input_normalization_witness :
    Filter (GoSlice.goNil : GoSlice Nat) (fun _ => true) = GoSlice.ofList [] :=
  (nil_input_normalization (κ := Nat) (ν := Nat) (β := Nat)).1 fun _ => true

/-- Witness for C8: a value of the input is a member of `Unique`. -/
theorem unique_first_appearance_witness :
    3 ∈ Unique ([3, 1, 3] : List Nat) :=
  ((unique_first_appearance ([3, 1, 3] : List Nat)).1 3).mpr (by decide)

/-- Witness for C9: grouping `[1,2,3]` by parity puts `[1,3]` under key 1. -/
theorem groupBy_partition_witness :
    (mapGet (GroupBy ([1, 2, 3] : List Nat) (fun n => n % 2)) 1).getD []
      = [1, 3] := by
  have h := (groupBy_partition ([1, 2, 3] : List Nat) (fun n => n % 2)).1 1
  rw [h]
  decide

/-! ## In-place reverse lemmas (claim C10) -/

theorem length_swapAt (l : List α) (i j : Nat) :
    (swapAt l i j).length = l.length := by
  cases h1 : l[i]? <;> cases h2 : l[j]? <;>
    simp [swapAt, h1, h2, List.length_set]

theorem getElem?_swapAt (l : List α) (i j m : Nat)
    (hi : i < l.length) (hj : j < l.length) :
    (swapAt l i j)[m]? =
      if m = j then l[i]? else if m = i then l[j]? else l[m]? := by
  have ha : l[i]? = some l[i] := List.getElem?_eq_getElem hi
  have hb : l[j]? = some l[j] := List.getElem?_eq_getElem hj
  simp only [swapAt, ha, hb]
  rw [List.getElem?_set, List.getElem?_set, List.length_set]
  by_cases hmj : m = j
  · subst hmj
    simp [hj, ha.symm]
  · have hjm : ¬ (j = m) := fun h => hmj h.symm
    rw [if_neg hjm, if_neg hmj]
    by_cases hmi : m = i
    · subst hmi
      simp [hi, hb.symm]
    · have him : ¬ (i = m) := fun h => hmi h.symm
      rw [if_neg him, if_neg hmi]

theorem revGo_length :
    ∀ (fuel i : Nat) (s : List α), (revGo s i fuel).length = s.length := by
  intro fuel
  induction fuel with
  | zero => intro i s; rfl
  | succ fuel ih =>
      intro i s
      simp only [revGo]
      by_cases h : i < s.length / 2
      · rw [if_pos h, ih, length_swapAt]
      · rw [if_neg h]

/-- Once the loop counter reaches the middle, the invariant state is the
pointwise reversal. -/
theorem inv_terminal (l : List α) (i : Nat) (s : List α)
    (_hlen : s.length = l.length) (hi : l.length / 2 ≤ i)
    (hinv : ∀ j, j < l.length →
      s[j]? = if j < i ∨ l.length - i ≤ j then l[l.length - 1 - j]?
        else l[j]?)
    (j : Nat) (hj : j < l.length) : s[j]? = l[l.length - 1 - j]? := by
  rw [hinv j hj]
  by_cases hc : j < i ∨ l.length - i ≤ j
  · rw [if_pos hc]
  · rw [if_neg hc]
    have heq : j = l.length - 1 - j := by omega
    exact congrArg (fun t => l[t]?) heq

/-- Loop invariant for the swap loop: positions below `i` and above
`length - i` already hold the reversed elements, the middle is untouched;
running the loop to completion reverses every position. -/
theorem revGo_final (l : List α) :
    ∀ (fuel i : Nat) (s : List α),
      s.length = l.length →
      l.length / 2 ≤ i + fuel →
      (∀ j, j < l.length →
        s[j]? = if j < i ∨ l.length - i ≤ j then l[l.length - 1 - j]?
          else l[j]?) →
      ∀ j, j < l.length → (revGo s i fuel)[j]? = l[l.length - 1 - j]? := by
  intro fuel
  induction fuel with
  | zero =>
      intro i s hlen hfuel hinv j hj
      exact inv_terminal l i s hlen (by omega) hinv j hj
  | succ fuel ih =>
      intro i s hlen hfuel hinv j hj
      simp only [revGo]
      by_cases hcond : i < s.length / 2
      · rw [if_pos hcond, hlen]
        have hi2 : i < l.length / 2 := by rw [hlen] at hcond; exact hcond
        have hilt : i < l.length := by omega
        have hnlt : l.length - 1 - i < l.length := by omega
        refine ih (i + 1) (swapAt s i (l.length - 1 - i)) ?_ (by omega) ?_ j hj
        · rw [length_swapAt]; exact hlen
        · intro j' hj'
          rw [getElem?_swapAt s i (l.length - 1 - i) j' (by omega)
            (by omega)]
          by_cases h1 : j' = l.length - 1 - i
          · rw [if_pos h1]
            have hsi : s[i]? = l[i]? := by
              have h := hinv i hilt
              rw [if_neg (by omega)] at h
              exact h
            rw [if_pos (by omega)]
            have heq : l.length - 1 - j' = i := by omega
            rw [heq]
            exact hsi
          · rw [if_neg h1]
            by_cases h2 : j' = i
            · rw [if_pos h2]
              have hsni : s[l.length - 1 - i]? = l[l.length - 1 - i]? := by
                have h := hinv (l.length - 1 - i) (by omega)
                rw [if_neg (by omega)] at h
                exact h
              rw [if_pos (by omega), h2]
              exact hsni
            · rw [if_neg h2]
              have h := hinv j' hj'
              by_cases hc : j' < i ∨ l.length - i ≤ j'
              · rw [if_pos hc] at h
                rw [h, if_pos (by omega)]
              · rw [if_neg hc] at h
                rw [h, if_neg (by omega)]
      · rw [if_neg hcond]
        rw [hlen] at hcond
        exact inv_terminal l i s hlen (by omega) hinv j hj

/-- The swap loop computes list reversal. -/
theorem reverseInPlace_eq_reverse (l : List α) :
    ReverseInPlace l = l.reverse := by
  by_cases h : l.length < 2
  · rw [ReverseInPlace, if_pos h]
    cases l with
    | nil => rfl
    | cons a tl =>
        cases tl with
        | nil => rfl
        | cons b tl' => exact absurd h (by simp [Nat.not_lt])
  · rw [ReverseInPlace, if_neg h]
    refine List.ext_getElem? fun j => ?_
    by_cases hj : j < l.length
    · rw [revGo_final l l.length 0 l rfl (by omega) ?_ j hj]
      · exact (List.getElem?_reverse hj).symm
      · intro j' hj'
        rw [if_neg (by omega)]
    · rw [List.getElem?_eq_none, List.getElem?_eq_none]
      · simpa using Nat.le_of_not_lt hj
      · rw [revGo_length]; exact Nat.le_of_not_lt hj

/-- Claim C10: after the in-place reverse, position `i` holds the element
that was at position `length - 1 - i`; slices shorter than 2 are unchanged,
and the operation is an involution. -/
theorem reverseInPlace_spec (l : List α) :
    (∀ i, i < l.length → (ReverseInPlace l)[i]? = l[l.length - 1 - i]?)
    ∧ (l.length < 2 → ReverseInPlace l = l)
    ∧ ReverseInPlace (ReverseInPlace l) = l := by
  refine ⟨fun i hi => ?_, fun h => ?_, ?_⟩
  · rw [reverseInPlace_eq_reverse]
    exact List.getElem?_reverse hi
  · rw [ReverseInPlace, if_pos h]
  · rw [reverseInPlace_eq_reverse, reverseInPlace_eq_reverse,
      List.reverse_reverse]

/-- Witness for C10 at `l = [1,2,3]`, `i = 0`: the first element after the
in-place reverse is the old last element. -/
theorem reverseInPlace_spec_witness :
    (ReverseInPlace ([1, 2, 3] : List Nat))[0]? = some 3 := by
  have h := (reverseInPlace_spec ([1, 2, 3] : List Nat)).1 0 (by decide)
  simpa using h

end Functional
